import Mathlib

/-!
Verification development for the `stats` repository.

The file embeds the belief-propagation core of `stats/bp.py` (potential
functions, message update rule, chain propagator, marginal combiner) and the
auto-covariance estimator of `stats/common.py` into Lean, and proves the
specified properties about these embeddings.

Conventions of the embedding:
- Python floats are modelled by real numbers.
- Raised exceptions are modelled by `Except`: `ValueError` on a shape
  violation becomes `BPError.configError`; the error taxonomy of the design
  document also names a `NumericalDomainError`, which is present as a
  constructor so that its absence from every code path can be stated.
- Python lists become `List ℝ`; `zip` truncation, negative-step slicing and
  in-place `reverse` are translated by `List.zip`, `List.reverse` and
  `List.dropLast` with the same element-level behaviour.
-/

noncomputable section

namespace Stats

/-- Spin up constant `SU = 1` from `bp.py`. -/
def SU : ℝ := 1

/-- Spin down constant `SD = -1` from `bp.py`. -/
def SD : ℝ := -1

/-- Exponential of the two spins interaction term (`_phi_interaction` in
`bp.py`): `np.exp(beta*J*float(x_1)*float(x_2))`. -/
def phi_interaction (x1 x2 J beta : ℝ) : ℝ := Real.exp (beta * J * x1 * x2)

/-- Exponential of the one spin interaction term (`_phi_field` in `bp.py`):
`np.exp(beta*h*x_1)`. -/
def phi_field (x1 h beta : ℝ) : ℝ := Real.exp (beta * h * x1)

/-- Non normalised positive message `tmp_up` of `_propagate_message`. -/
def tmp_up (beta jj hh mu_up : ℝ) : ℝ :=
  phi_interaction SU SU jj beta * phi_field SU hh beta * mu_up
    + phi_interaction SU SD jj beta * phi_field SD hh beta * (1 - mu_up)

/-- Non normalised negative message `tmp_dw` of `_propagate_message`. -/
def tmp_dw (beta jj hh mu_up : ℝ) : ℝ :=
  phi_interaction SD SU jj beta * phi_field SU hh beta * mu_up
    + phi_interaction SD SD jj beta * phi_field SD hh beta * (1 - mu_up)

/-- Message update rule (`_propagate_message` in `bp.py`): returns the
normalised positive message `tmp_up / (tmp_up + tmp_dw)`. -/
def propagate_message (beta jj hh mu_up : ℝ) : ℝ :=
  tmp_up beta jj hh mu_up / (tmp_up beta jj hh mu_up + tmp_dw beta jj hh mu_up)

/-- Direction flag of `_propagate_messages_chain` (the strings `left` and
`right` in `bp.py`). -/
inductive Direction
  | left
  | right
deriving DecidableEq

/-- Errors of the design document. `configError` models the `ValueError`
raised by `bp.py` on a shape violation. `numericalDomainError` is the
`NumericalDomainError` of the design error taxonomy; the code of `bp.py`
contains no path producing it. -/
inductive BPError
  | configError
  | numericalDomainError
deriving DecidableEq

/-- Loop of `_propagate_messages_chain`: starting from `message_start`,
apply the update rule once per `(coupling, field)` pair, the output list
beginning with the start message. -/
def propagate_fold (beta : ℝ) : List (ℝ × ℝ) → ℝ → List ℝ
  | [], m => [m]
  | p :: ps, m => m :: propagate_fold beta ps (propagate_message beta p.1 p.2 m)

/-- Chain propagator (`_propagate_messages_chain` in `bp.py`). The `left`
direction folds over `zip(coupling, field[:-1])`; the `right` direction folds
over `zip(coupling[::-1], field[-2::-1])` and reverses the result. The shape
check `len(coupling) != len(field)-1` is performed over the integers, as in
Python. -/
def propagate_messages_chain (beta : ℝ) (coupling field : List ℝ)
    (message_start : ℝ) (direction : Direction) : Except BPError (List ℝ) :=
  if (coupling.length : ℤ) ≠ (field.length : ℤ) - 1 then .error .configError
  else
    match direction with
    | .left => .ok (propagate_fold beta (coupling.zip field.dropLast) message_start)
    | .right =>
        .ok ((propagate_fold beta (coupling.reverse.zip field.dropLast.reverse)
          message_start).reverse)

/-- Marginal combiner (`marginals` in `bp.py`): checks the shape invariant,
propagates messages in both directions from `0.5`, and combines them with the
local field terms `np.exp(beta*hh*SU)` and `np.exp(beta*hh*SD)`. -/
def marginals (beta : ℝ) (coupling field : List ℝ) : Except BPError (List ℝ) :=
  if (coupling.length : ℤ) ≠ (field.length : ℤ) - 1 then .error .configError
  else
    (propagate_messages_chain beta coupling field 0.5 .left).bind fun mu_left =>
    (propagate_messages_chain beta coupling field 0.5 .right).bind fun mu_right =>
    .ok (List.zipWith (fun u d => u / (u + d))
      (List.zipWith (fun x mr => x * mr)
        (List.zipWith (fun ml lf => ml * lf) mu_left
          (field.map fun hh => Real.exp (beta * hh * SU))) mu_right)
      (List.zipWith (fun x mr => x * (1 - mr))
        (List.zipWith (fun ml lf => (1 - ml) * lf) mu_left
          (field.map fun hh => Real.exp (beta * hh * SD))) mu_right))

/-- Successful branch of `marginals`, written without the `Except` plumbing:
the value `marginals` returns when the shape check passes. -/
def marginals_core (beta : ℝ) (coupling field : List ℝ) : List ℝ :=
  List.zipWith (fun u d => u / (u + d))
    (List.zipWith (fun x mr => x * mr)
      (List.zipWith (fun ml lf => ml * lf)
        (propagate_fold beta (coupling.zip field.dropLast) 0.5)
        (field.map fun hh => Real.exp (beta * hh * SU)))
      ((propagate_fold beta (coupling.reverse.zip field.dropLast.reverse) 0.5).reverse))
    (List.zipWith (fun x mr => x * (1 - mr))
      (List.zipWith (fun ml lf => (1 - ml) * lf)
        (propagate_fold beta (coupling.zip field.dropLast) 0.5)
        (field.map fun hh => Real.exp (beta * hh * SD)))
      ((propagate_fold beta (coupling.reverse.zip field.dropLast.reverse) 0.5).reverse))

/-- Message update rule written exactly as claim C1 states it: for each
outgoing spin value sum over the source spin value s of
`pairwise(s, s2, J, beta) * fieldweight(s, h, beta) * P(s)` with
`P(+1) = mu_up` and `P(-1) = 1 - mu_up`, then normalise. -/
def propagate_message_claim (beta J h mu_up : ℝ) : ℝ :=
  (phi_interaction 1 1 J beta * phi_field 1 h beta * mu_up
      + phi_interaction (-1) 1 J beta * phi_field (-1) h beta * (1 - mu_up))
    / ((phi_interaction 1 1 J beta * phi_field 1 h beta * mu_up
      + phi_interaction (-1) 1 J beta * phi_field (-1) h beta * (1 - mu_up))
      + (phi_interaction 1 (-1) J beta * phi_field 1 h beta * mu_up
      + phi_interaction (-1) (-1) J beta * phi_field (-1) h beta * (1 - mu_up)))

/-- Right direction of the chain propagator written exactly as claim C5
states it: messages are generated right to left pairing `coupling[N-2-i]`
with `field[N-1-i]`, and the output sequence is reversed before being
returned. -/
def propagate_chain_right_claim (beta : ℝ) (coupling field : List ℝ)
    (message_start : ℝ) : List ℝ :=
  (propagate_fold beta (coupling.reverse.zip field.reverse.dropLast)
    message_start).reverse

/-- Error raised by the statistics collaborator on an empty sample. -/
inductive StatsError
  | emptySample
deriving DecidableEq

/-- Arithmetic mean of a sample. -/
def mean (xs : List ℝ) : ℝ := xs.sum / xs.length

/-- Modelled from the spec: the covariance collaborator used by `acvar`
(`np.cov(x, y)[0, 1]` in `common.py`; numpy itself is not part of the
repository). Per the spec contract it fails if the sample is empty, and
otherwise returns the standard covariance estimator of the two sequences
(normalisation by `n - 1`). -/
def cov (xs ys : List ℝ) : Except StatsError ℝ :=
  if xs.isEmpty ∨ ys.isEmpty then .error .emptySample
  else .ok ((List.zipWith (fun a b => (a - mean xs) * (b - mean ys)) xs ys).sum
    / ((xs.length : ℝ) - 1))

/-- Auto-covariance estimator (`acvar` in `common.py`): the 0-lag
auto-covariance of the sample followed by the lag `i` auto-covariance of
`sample[i:]` against `sample[:-i]` for `i = 1 .. n_lags`. -/
def acvar (sample : List ℝ) (n_lags : ℕ) : Except StatsError (List ℝ) :=
  (cov sample sample).bind fun c0 =>
  ((List.range n_lags).mapM fun i =>
    cov (sample.drop (i + 1)) (sample.take (sample.length - (i + 1)))).bind fun rest =>
  .ok (c0 :: rest)

/-! Helper lemmas about the message update rule. -/

/-- Convex combination of two positive weights with coefficients `t` and
`1 - t`, `t` in the unit interval, is positive. -/
lemma convex_pos {A B t : ℝ} (hA : 0 < A) (hB : 0 < B) (h0 : 0 ≤ t)
    (h1 : t ≤ 1) : 0 < A * t + B * (1 - t) := by
  rcases eq_or_lt_of_le h0 with h | h
  · rw [← h]
    simpa using hB
  · have hAt : 0 < A * t := mul_pos hA h
    have hBt : 0 ≤ B * (1 - t) := mul_nonneg hB.le (by linarith)
    linarith

/-- The unnormalised positive message is positive for an incoming message in
the unit interval. -/
lemma tmp_up_pos (beta jj hh : ℝ) {mu : ℝ} (h0 : 0 ≤ mu) (h1 : mu ≤ 1) :
    0 < tmp_up beta jj hh mu := by
  unfold tmp_up phi_interaction phi_field
  exact convex_pos (mul_pos (Real.exp_pos _) (Real.exp_pos _))
    (mul_pos (Real.exp_pos _) (Real.exp_pos _)) h0 h1

/-- The unnormalised negative message is positive for an incoming message in
the unit interval. -/
lemma tmp_dw_pos (beta jj hh : ℝ) {mu : ℝ} (h0 : 0 ≤ mu) (h1 : mu ≤ 1) :
    0 < tmp_dw beta jj hh mu := by
  unfold tmp_dw phi_interaction phi_field
  exact convex_pos (mul_pos (Real.exp_pos _) (Real.exp_pos _))
    (mul_pos (Real.exp_pos _) (Real.exp_pos _)) h0 h1

/-- The update rule sends a message in the unit interval strictly inside it. -/
lemma propagate_message_mem (beta jj hh : ℝ) {mu : ℝ} (h0 : 0 ≤ mu)
    (h1 : mu ≤ 1) :
    0 < propagate_message beta jj hh mu ∧ propagate_message beta jj hh mu < 1 := by
  have hu := tmp_up_pos beta jj hh h0 h1
  have hd := tmp_dw_pos beta jj hh h0 h1
  constructor
  · exact div_pos hu (by linarith)
  · rw [propagate_message, div_lt_one (by linarith)]
    linarith

/-- With a vanishing coupling the update rule fixes the message `1/2`. -/
lemma propagate_message_coupling_zero (beta hh : ℝ) :
    propagate_message beta 0 hh (1 / 2) = 1 / 2 := by
  have h : tmp_up beta 0 hh (1 / 2) = tmp_dw beta 0 hh (1 / 2) := by
    unfold tmp_up tmp_dw phi_interaction phi_field SU SD
    norm_num
  have hu := tmp_up_pos beta 0 hh (by norm_num : (0:ℝ) ≤ 1 / 2) (by norm_num)
  rw [propagate_message, ← h, div_eq_iff (by linarith)]
  ring

/-- With a vanishing field the update rule fixes the message `1/2`. -/
lemma propagate_message_field_zero (beta jj : ℝ) :
    propagate_message beta jj 0 (1 / 2) = 1 / 2 := by
  have h : tmp_up beta jj 0 (1 / 2) = tmp_dw beta jj 0 (1 / 2) := by
    unfold tmp_up tmp_dw phi_interaction phi_field SU SD
    norm_num
    ring
  have hu := tmp_up_pos beta jj 0 (by norm_num : (0:ℝ) ≤ 1 / 2) (by norm_num)
  rw [propagate_message, ← h, div_eq_iff (by linarith)]
  ring

/-! Helper lemmas about the chain fold. -/

/-- Length of the chain fold: one message per pair plus the start message. -/
lemma propagate_fold_length (beta : ℝ) (ps : List (ℝ × ℝ)) (m : ℝ) :
    (propagate_fold beta ps m).length = ps.length + 1 := by
  induction ps generalizing m with
  | nil => simp [propagate_fold]
  | cons p ps ih => simp [propagate_fold, ih]

/-- Every message produced by the chain fold from a start in the open unit
interval stays in the open unit interval. -/
lemma propagate_fold_mem (beta : ℝ) (ps : List (ℝ × ℝ)) :
    ∀ m, 0 < m → m < 1 → ∀ x ∈ propagate_fold beta ps m, 0 < x ∧ x < 1 := by
  induction ps with
  | nil =>
    intro m hm0 hm1 x hx
    simp [propagate_fold] at hx
    subst hx
    exact ⟨hm0, hm1⟩
  | cons p ps ih =>
    intro m hm0 hm1 x hx
    simp only [propagate_fold, List.mem_cons] at hx
    rcases hx with rfl | hx
    · exact ⟨hm0, hm1⟩
    · have hnext := propagate_message_mem beta p.1 p.2 hm0.le hm1.le
      exact ih _ hnext.1 hnext.2 x hx

/-- If every pair fixes the message `1/2`, the fold from `1/2` is constant. -/
lemma propagate_fold_half (beta : ℝ) (ps : List (ℝ × ℝ))
    (hstep : ∀ p ∈ ps, propagate_message beta p.1 p.2 (1 / 2) = 1 / 2) :
    propagate_fold beta ps (1 / 2) = List.replicate (ps.length + 1) (1 / 2) := by
  induction ps with
  | nil => simp [propagate_fold]
  | cons p ps ih =>
    have hp := hstep p (List.mem_cons_self p ps)
    simp only [propagate_fold, hp, List.length_cons]
    rw [ih fun q hq => hstep q (List.mem_cons_of_mem p hq)]
    rfl

/-- Membership decomposition for `zipWith`. -/
lemma mem_zipWith {α β γ : Type} {g : α → β → γ} :
    ∀ {l1 : List α} {l2 : List β} {x : γ}, x ∈ List.zipWith g l1 l2 →
      ∃ a, a ∈ l1 ∧ ∃ b, b ∈ l2 ∧ x = g a b := by
  intro l1
  induction l1 with
  | nil => intro l2 x hx; simp at hx
  | cons a l1 ih =>
    intro l2 x hx
    cases l2 with
    | nil => simp at hx
    | cons b l2 =>
      simp only [List.zipWith_cons_cons, List.mem_cons] at hx
      rcases hx with rfl | hx
      · exact ⟨a, by simp, b, by simp⟩
      · obtain ⟨a2, ha2, b2, hb2, rfl⟩ := ih hx
        exact ⟨a2, by simp [ha2], b2, by simp [hb2]⟩

/-! Structural lemmas about the marginal combiner. -/

/-- When the shape check passes, `marginals` reduces to its successful
branch. -/
lemma marginals_eq_ok (beta : ℝ) (coupling field : List ℝ)
    (hlen : (coupling.length : ℤ) = (field.length : ℤ) - 1) :
    marginals beta coupling field = .ok (marginals_core beta coupling field) := by
  have hcond : ¬((coupling.length : ℤ) ≠ (field.length : ℤ) - 1) :=
    not_not_intro hlen
  unfold marginals propagate_messages_chain
  rw [if_neg hcond, if_neg hcond, if_neg hcond]
  rfl

/-- Under the shape invariant the field list is one longer than the coupling
list. -/
lemma field_length_eq (coupling field : List ℝ)
    (hlen : (coupling.length : ℤ) = (field.length : ℤ) - 1) :
    field.length = coupling.length + 1 := by omega

/-- Length of the successful branch of `marginals`: one marginal per site. -/
lemma marginals_core_length (beta : ℝ) (coupling field : List ℝ)
    (hlen : (coupling.length : ℤ) = (field.length : ℤ) - 1) :
    (marginals_core beta coupling field).length = field.length := by
  have hf := field_length_eq coupling field hlen
  simp [marginals_core, List.length_zipWith, propagate_fold_length,
    List.length_zip, List.length_dropLast, hf]

/-- C4: `marginals` signals a configuration error exactly when the coupling
sequence is not one shorter than the field sequence; when the shape check
passes it returns a result and no error. -/
theorem marginals_configError_iff (beta : ℝ) (coupling field : List ℝ) :
    marginals beta coupling field = .error .configError ↔
      (coupling.length : ℤ) ≠ (field.length : ℤ) - 1 := by
  constructor
  · intro h
    by_contra hc
    rw [marginals_eq_ok beta coupling field hc] at h
    exact Except.noConfusion h
  · intro h
    unfold marginals
    rw [if_pos h]

/-- C3 evidence: no input makes `marginals` signal the numerical domain
error of the design document; the code contains no such check, its only
error path is the shape check. -/
theorem marginals_never_numericalDomainError (beta : ℝ)
    (coupling field : List ℝ) :
    marginals beta coupling field ≠ .error .numericalDomainError := by
  by_cases hc : (coupling.length : ℤ) = (field.length : ℤ) - 1
  · rw [marginals_eq_ok beta coupling field hc]
    exact fun h => Except.noConfusion h
  · unfold marginals
    rw [if_pos hc]
    intro h
    injection h with h2
    exact BPError.noConfusion h2

/-- C8: for every valid call the marginal sequence has exactly one entry per
field. -/
theorem marginals_length_eq (beta : ℝ) (coupling field : List ℝ)
    (hlen : (coupling.length : ℤ) = (field.length : ℤ) - 1) :
    ∃ l, marginals beta coupling field = .ok l ∧ l.length = field.length :=
  ⟨marginals_core beta coupling field, marginals_eq_ok beta coupling field hlen,
    marginals_core_length beta coupling field hlen⟩

/-- Witness for C8 at a concrete valid input. -/
theorem marginals_length_eq_witness :
    ((List.length ([] : List ℝ) : ℤ) = (List.length [(0 : ℝ)] : ℤ) - 1) ∧
      ∃ l, marginals 1 [] [(0 : ℝ)] = .ok l ∧ l.length = [(0 : ℝ)].length :=
  ⟨by simp, marginals_length_eq 1 [] [(0 : ℝ)] (by simp)⟩

/-- C7: every entry of a successfully returned marginal sequence lies in the
closed unit interval. -/
theorem marginals_range (beta : ℝ) (coupling field : List ℝ)
    (hlen : (coupling.length : ℤ) = (field.length : ℤ) - 1) :
    ∃ l, marginals beta coupling field = .ok l ∧ ∀ x ∈ l, 0 ≤ x ∧ x ≤ 1 := by
  refine ⟨marginals_core beta coupling field,
    marginals_eq_ok beta coupling field hlen, ?_⟩
  intro x hx
  unfold marginals_core at hx
  obtain ⟨u, hu, d, hd, rfl⟩ := mem_zipWith hx
  obtain ⟨y, hy, mr, hmr, rfl⟩ := mem_zipWith hu
  obtain ⟨ml, hml, lf, hlf, rfl⟩ := mem_zipWith hy
  obtain ⟨y2, hy2, mr2, hmr2, rfl⟩ := mem_zipWith hd
  obtain ⟨ml2, hml2, lf2, hlf2, rfl⟩ := mem_zipWith hy2
  have hhalf0 : (0 : ℝ) < 0.5 := by norm_num
  have hhalf1 : (0.5 : ℝ) < 1 := by norm_num
  have hml_mem := propagate_fold_mem beta _ _ hhalf0 hhalf1 ml hml
  have hml2_mem := propagate_fold_mem beta _ _ hhalf0 hhalf1 ml2 hml2
  have hmr_mem := propagate_fold_mem beta _ _ hhalf0 hhalf1 mr
    (List.mem_reverse.mp hmr)
  have hmr2_mem := propagate_fold_mem beta _ _ hhalf0 hhalf1 mr2
    (List.mem_reverse.mp hmr2)
  obtain ⟨hh, _, rfl⟩ := List.mem_map.mp hlf
  obtain ⟨hh2, _, rfl⟩ := List.mem_map.mp hlf2
  have hupos : 0 < ml * Real.exp (beta * hh * SU) * mr :=
    mul_pos (mul_pos hml_mem.1 (Real.exp_pos _)) hmr_mem.1
  have hdpos : 0 < (1 - ml2) * Real.exp (beta * hh2 * SD) * (1 - mr2) :=
    mul_pos (mul_pos (by linarith [hml2_mem.2]) (Real.exp_pos _))
      (by linarith [hmr2_mem.2])
  constructor
  · exact le_of_lt (div_pos hupos (by linarith))
  · rw [div_le_one (by linarith)]
    linarith

/-- Witness for C7 at a concrete valid input. -/
theorem marginals_range_witness :
    ((List.length [(0 : ℝ)] : ℤ) = (List.length [(1 : ℝ), 2] : ℤ) - 1) ∧
      ∃ l, marginals 2 [(0 : ℝ)] [(1 : ℝ), 2] = .ok l ∧
        ∀ x ∈ l, 0 ≤ x ∧ x ≤ 1 :=
  ⟨by simp, marginals_range 2 [(0 : ℝ)] [(1 : ℝ), 2] (by simp)⟩

/-- C1: the message update of the code coincides with the claim's sum over
source spins of pairwise times field weight times incoming distribution,
normalised. -/
theorem propagate_message_matches_claim (beta J h mu : ℝ) (h0 : 0 ≤ mu)
    (h1 : mu ≤ 1) :
    propagate_message beta J h mu = propagate_message_claim beta J h mu := by
  unfold propagate_message propagate_message_claim tmp_up tmp_dw
    phi_interaction phi_field SU SD
  norm_num

/-- Witness for C1 at a concrete input. -/
theorem propagate_message_matches_claim_witness :
    0 ≤ (1 / 2 : ℝ) ∧ (1 / 2 : ℝ) ≤ 1 ∧
      propagate_message 1 2 3 (1 / 2) = propagate_message_claim 1 2 3 (1 / 2) :=
  ⟨by norm_num, by norm_num,
    propagate_message_matches_claim 1 2 3 (1 / 2) (by norm_num) (by norm_num)⟩

/-! Machinery for the all-messages-equal-one-half situations. -/

/-- Combining constant one-half messages with local field weights yields a
map over the field list. -/
lemma core_on_half_messages (g1 g2 : ℝ → ℝ) (f : List ℝ) :
    List.zipWith (fun u d => u / (u + d))
      (List.zipWith (fun x mr => x * mr)
        (List.zipWith (fun ml lf => ml * lf)
          (List.replicate f.length (1 / 2 : ℝ)) (f.map g1))
        (List.replicate f.length (1 / 2 : ℝ)))
      (List.zipWith (fun x mr => x * (1 - mr))
        (List.zipWith (fun ml lf => (1 - ml) * lf)
          (List.replicate f.length (1 / 2 : ℝ)) (f.map g2))
        (List.replicate f.length (1 / 2 : ℝ)))
    = f.map fun hh => (1 / 2 * g1 hh * (1 / 2))
        / (1 / 2 * g1 hh * (1 / 2) + (1 - 1 / 2) * g2 hh * (1 - 1 / 2)) := by
  induction f with
  | nil => simp
  | cons hh f ih =>
    simp only [List.length_cons, List.replicate_succ, List.map_cons,
      List.zipWith_cons_cons, ih]

/-- When both direction folds fix the message one half, the successful
branch of `marginals` is a pointwise function of the fields. -/
lemma marginals_core_half (beta : ℝ) (coupling field : List ℝ)
    (hstepL : ∀ p ∈ coupling.zip field.dropLast,
      propagate_message beta p.1 p.2 (1 / 2) = 1 / 2)
    (hstepR : ∀ p ∈ coupling.reverse.zip field.dropLast.reverse,
      propagate_message beta p.1 p.2 (1 / 2) = 1 / 2)
    (hlen : (coupling.length : ℤ) = (field.length : ℤ) - 1) :
    marginals_core beta coupling field
      = field.map fun hh => (1 / 2 * Real.exp (beta * hh * SU) * (1 / 2))
          / (1 / 2 * Real.exp (beta * hh * SU) * (1 / 2)
            + (1 - 1 / 2) * Real.exp (beta * hh * SD) * (1 - 1 / 2)) := by
  have hf := field_length_eq coupling field hlen
  have hlzip : (coupling.zip field.dropLast).length = coupling.length := by
    simp [List.length_zip, List.length_dropLast, hf]
  have hrzip : (coupling.reverse.zip field.dropLast.reverse).length
      = coupling.length := by
    simp [List.length_zip, List.length_dropLast, hf]
  have hL := propagate_fold_half beta _ hstepL
  have hR := propagate_fold_half beta _ hstepR
  rw [hlzip] at hL
  rw [hrzip] at hR
  unfold marginals_core
  rw [show (0.5 : ℝ) = 1 / 2 by norm_num, hL, hR, List.reverse_replicate,
    show coupling.length + 1 = field.length by omega]
  exact core_on_half_messages _ _ field

/-- Single-site Boltzmann form of a combined one-half message entry. -/
lemma entry_decoupled (beta hh : ℝ) :
    (1 / 2 * Real.exp (beta * hh * SU) * (1 / 2))
      / (1 / 2 * Real.exp (beta * hh * SU) * (1 / 2)
        + (1 - 1 / 2) * Real.exp (beta * hh * SD) * (1 - 1 / 2))
    = 1 / (1 + Real.exp (-(2 * beta * hh))) := by
  unfold SU SD
  rw [mul_one, mul_neg_one]
  have hE := Real.exp_pos (beta * hh)
  have hE2 := Real.exp_pos (-(beta * hh))
  have hE3 := Real.exp_pos (-(2 * beta * hh))
  have key : Real.exp (beta * hh) * Real.exp (-(2 * beta * hh))
      = Real.exp (-(beta * hh)) := by
    rw [← Real.exp_add]
    ring_nf
  rw [div_eq_div_iff (by positivity) (by positivity)]
  linear_combination (1 / 4 : ℝ) * key

/-- Retrieving an entry of a mapped list with the default-valued getter. -/
lemma getD_map_of_lt (G : ℝ → ℝ) (f : List ℝ) (i : ℕ) (hi : i < f.length) :
    (f.map G).getD i 0 = G (f.getD i 0) := by
  rw [List.getD_eq_getElem _ _ (by simpa using hi),
    List.getD_eq_getElem _ _ hi, List.getElem_map]

/-- C2: with all couplings zero, each marginal is the single-spin Boltzmann
marginal of its own field, independent of the chain length. -/
theorem marginals_decoupled (beta : ℝ) (coupling field : List ℝ)
    (hc : ∀ x ∈ coupling, x = (0 : ℝ))
    (hlen : (coupling.length : ℤ) = (field.length : ℤ) - 1)
    (i : ℕ) (hi : i < field.length) :
    ∃ l, marginals beta coupling field = .ok l ∧
      l.getD i 0 = 1 / (1 + Real.exp (-(2 * beta * field.getD i 0))) := by
  refine ⟨marginals_core beta coupling field,
    marginals_eq_ok beta coupling field hlen, ?_⟩
  have hstepL : ∀ p ∈ coupling.zip field.dropLast,
      propagate_message beta p.1 p.2 (1 / 2) = 1 / 2 := by
    intro p hp
    obtain ⟨a, b⟩ := p
    have ha : a = 0 := hc a (List.of_mem_zip hp).1
    subst ha
    exact propagate_message_coupling_zero beta b
  have hstepR : ∀ p ∈ coupling.reverse.zip field.dropLast.reverse,
      propagate_message beta p.1 p.2 (1 / 2) = 1 / 2 := by
    intro p hp
    obtain ⟨a, b⟩ := p
    have ha : a = 0 := hc a (List.mem_reverse.mp (List.of_mem_zip hp).1)
    subst ha
    exact propagate_message_coupling_zero beta b
  rw [marginals_core_half beta coupling field hstepL hstepR hlen,
    getD_map_of_lt _ _ _ hi]
  exact entry_decoupled beta (field.getD i 0)

/-- Witness for C2 at the concrete scenario with a single site. -/
theorem marginals_decoupled_witness :
    (∀ x ∈ ([] : List ℝ), x = (0 : ℝ)) ∧
      ((List.length ([] : List ℝ) : ℤ) = (List.length [(1 : ℝ)] : ℤ) - 1) ∧
      ∃ l, marginals 1 [] [(1 : ℝ)] = .ok l ∧
        l.getD 0 0 = 1 / (1 + Real.exp (-(2 * 1 * List.getD [(1 : ℝ)] 0 0))) :=
  ⟨by simp, by simp, marginals_decoupled 1 [] [(1 : ℝ)] (by simp) (by simp) 0
    (by simp)⟩

/-- C6: with all fields zero and all couplings equal, every marginal is one
half. -/
theorem marginals_zero_field (beta j : ℝ) (coupling field : List ℝ)
    (hcj : ∀ x ∈ coupling, x = j) (hf : ∀ x ∈ field, x = (0 : ℝ))
    (hlen : (coupling.length : ℤ) = (field.length : ℤ) - 1) :
    ∃ l, marginals beta coupling field = .ok l ∧ ∀ x ∈ l, x = (0.5 : ℝ) := by
  refine ⟨marginals_core beta coupling field,
    marginals_eq_ok beta coupling field hlen, ?_⟩
  have hstepL : ∀ p ∈ coupling.zip field.dropLast,
      propagate_message beta p.1 p.2 (1 / 2) = 1 / 2 := by
    intro p hp
    obtain ⟨a, b⟩ := p
    have hb : b = 0 := hf b (List.dropLast_subset field (List.of_mem_zip hp).2)
    subst hb
    exact propagate_message_field_zero beta a
  have hstepR : ∀ p ∈ coupling.reverse.zip field.dropLast.reverse,
      propagate_message beta p.1 p.2 (1 / 2) = 1 / 2 := by
    intro p hp
    obtain ⟨a, b⟩ := p
    have hb : b = 0 := hf b
      (List.dropLast_subset field (List.mem_reverse.mp (List.of_mem_zip hp).2))
    subst hb
    exact propagate_message_field_zero beta a
  rw [marginals_core_half beta coupling field hstepL hstepR hlen]
  intro x hx
  obtain ⟨hh, hhf, rfl⟩ := List.mem_map.mp hx
  rw [hf hh hhf]
  norm_num [SU, SD, Real.exp_zero]

/-- Witness for C6 at the spec's concrete scenario. -/
theorem marginals_zero_field_witness :
    (∀ x ∈ [(0 : ℝ), 0], x = (0 : ℝ)) ∧
      (∀ x ∈ [(0 : ℝ), 0, 0], x = (0 : ℝ)) ∧
      ((List.length [(0 : ℝ), 0] : ℤ) = (List.length [(0 : ℝ), 0, 0] : ℤ) - 1) ∧
      ∃ l, marginals 1 [(0 : ℝ), 0] [(0 : ℝ), 0, 0] = .ok l ∧
        ∀ x ∈ l, x = (0.5 : ℝ) :=
  ⟨by simp, by simp, by simp,
    marginals_zero_field 1 0 [(0 : ℝ), 0] [(0 : ℝ), 0, 0] (by simp) (by simp)
      (by simp)⟩

/-! Concrete evaluations exhibiting the right-direction field pairing of the
code. -/

/-- At unit inverse temperature, coupling and field, the update rule pushes
the message strictly above one half. -/
lemma propagate_message_one_one_gt_half :
    1 / 2 < propagate_message 1 1 1 (1 / 2) := by
  have hD : tmp_dw 1 1 1 (1 / 2) = 1 := by
    unfold tmp_dw phi_interaction phi_field SU SD
    norm_num [Real.exp_neg]
  have hU : 1 < tmp_up 1 1 1 (1 / 2) := by
    unfold tmp_up phi_interaction phi_field SU SD
    norm_num [Real.exp_neg]
    have hE := Real.exp_one_gt_d9
    have hp : (0 : ℝ) < (Real.exp 1)⁻¹ := by positivity
    nlinarith
  rw [propagate_message, hD, lt_div_iff₀ (by linarith)]
  linarith

/-- C5 evidence: on the valid input `beta = 1`, `coupling = [1]`,
`field = [0, 1]`, the code's right-direction propagation pairs the coupling
with `field[0] = 0` and returns `[0.5, 0.5]`, while the pairing stated by the
claim (coupling `N-2-i` with field `N-1-i`) yields a different sequence. -/
theorem chain_right_divergence :
    propagate_messages_chain 1 [1] [0, 1] 0.5 .right = .ok [0.5, 0.5] ∧
      propagate_chain_right_claim 1 [1] [0, 1] 0.5 ≠ [0.5, 0.5] := by
  constructor
  · unfold propagate_messages_chain
    rw [if_neg (by simp)]
    norm_num [propagate_fold, propagate_message_field_zero]
  · unfold propagate_chain_right_claim
    intro h
    norm_num [propagate_fold] at h
    have := propagate_message_one_one_gt_half
    linarith

/-- C10 evidence: reversing couplings and fields does not reverse the
returned marginals; witnessed at `beta = 1`, `coupling = [1]`, fields
`[0, 1]` against `[1, 0]`. -/
theorem marginals_mirror_fails :
    marginals 1 [1] [1, 0] ≠ Except.map List.reverse (marginals 1 [1] [0, 1]) := by
  rw [marginals_eq_ok 1 [1] [1, 0] (by simp),
    marginals_eq_ok 1 [1] [0, 1] (by simp)]
  intro h
  simp only [Except.map] at h
  injection h with h
  have h1 := congrArg (fun l => l.getD 1 0) h
  simp only at h1
  have e2 : (marginals_core 1 [1] [1, 0]).getD 1 0
      = propagate_message 1 1 1 (1 / 2) := by
    norm_num [marginals_core, propagate_fold, propagate_message_field_zero]
    rw [show propagate_message 1 1 1 (1 / 2) * (1 / 2)
        + (1 - propagate_message 1 1 1 (1 / 2)) * (1 / 2) = 1 / 2 from by ring]
    field_simp
  have e1 : ((marginals_core 1 [1] [0, 1]).reverse).getD 1 0 = 1 / 2 := by
    norm_num [marginals_core, propagate_fold, propagate_message_field_zero]
  rw [e2, e1] at h1
  have := propagate_message_one_one_gt_half
  linarith

/-! Lemmas about the statistics collaborator and `acvar`. -/

/-- The covariance collaborator succeeds on two nonempty samples. -/
lemma cov_ok_of_ne_nil {xs ys : List ℝ} (hx : xs ≠ []) (hy : ys ≠ []) :
    ∃ y, cov xs ys = .ok y := by
  unfold cov
  rw [if_neg (by simp [List.isEmpty_iff, hx, hy])]
  exact ⟨_, rfl⟩

/-- The covariance collaborator fails on an empty first sample. -/
lemma cov_error_left (ys : List ℝ) : cov [] ys = .error .emptySample := by
  unfold cov
  rw [if_pos]
  exact Or.inl rfl

/-- The covariance of a constant sample with itself is zero. -/
lemma cov_replicate (n : ℕ) (hn : n ≠ 0) (c : ℝ) :
    cov (List.replicate n c) (List.replicate n c) = .ok 0 := by
  have hmean : mean (List.replicate n c) = c := by
    unfold mean
    rw [List.sum_replicate, List.length_replicate, nsmul_eq_mul,
      mul_div_cancel_left₀ _ (Nat.cast_ne_zero.mpr hn)]
  unfold cov
  rw [if_neg (by simp [List.isEmpty_iff, List.replicate_eq_nil_iff, hn])]
  rw [hmean]
  simp [List.zipWith_replicate, List.sum_replicate]

/-- A list `mapM` over `Except` whose function succeeds on every element
succeeds with one output per element. -/
lemma mapM_ok_of_forall {ε : Type} {α β : Type} (f : α → Except ε β)
    (l : List α) (h : ∀ x ∈ l, ∃ y, f x = .ok y) :
    ∃ out, l.mapM f = .ok out ∧ out.length = l.length := by
  induction l with
  | nil => exact ⟨[], by simp [List.mapM_nil]; rfl, rfl⟩
  | cons a t ih =>
    obtain ⟨y, hy⟩ := h a (List.mem_cons_self a t)
    obtain ⟨out, hout, hlen⟩ := ih fun x hx => h x (List.mem_cons_of_mem a hx)
    refine ⟨y :: out, ?_, by simp [hlen]⟩
    rw [List.mapM_cons, hy, hout]
    rfl

/-- A list `mapM` over `Except` whose function succeeds with the same value
on every element returns the replicated value. -/
lemma mapM_const_ok {ε : Type} {α β : Type} (f : α → Except ε β) (c : β)
    (l : List α) (h : ∀ x ∈ l, f x = .ok c) :
    l.mapM f = .ok (List.replicate l.length c) := by
  induction l with
  | nil => simp [List.mapM_nil]; rfl
  | cons a t ih =>
    rw [List.mapM_cons, h a (List.mem_cons_self a t),
      ih fun x hx => h x (List.mem_cons_of_mem a hx)]
    rfl

/-- A list `mapM` over `Except` fails as soon as some element fails. -/
lemma mapM_error_of_mem {ε : Type} {α β : Type} (f : α → Except ε β)
    {l : List α} {x : α} {e : ε} (hx : x ∈ l) (hfx : f x = .error e) :
    ∃ e2, l.mapM f = .error e2 := by
  induction l with
  | nil => simp at hx
  | cons a t ih =>
    rcases List.mem_cons.mp hx with rfl | hx2
    · exact ⟨e, by rw [List.mapM_cons, hfx]; rfl⟩
    · cases hfa : f a with
      | error e3 => exact ⟨e3, by rw [List.mapM_cons, hfa]; rfl⟩
      | ok y =>
        obtain ⟨e2, he2⟩ := ih hx2
        refine ⟨e2, ?_⟩
        rw [List.mapM_cons, hfa]
        show (t.mapM f).bind _ = _
        rw [he2]
        rfl

/-- C9: `acvar` fails exactly on samples with at most `n_lags` elements, a
successful call returns `n_lags + 1` values, and the auto-covariance of a
constant sample of length 1000 over 5 lags is six zeros. -/
theorem acvar_contract (s : List ℝ) (k : ℕ) :
    (s.length ≤ k → ∃ e, acvar s k = .error e) ∧
      (k < s.length → ∃ l, acvar s k = .ok l ∧ l.length = k + 1) ∧
      acvar (List.replicate 1000 (1 : ℝ)) 5 = .ok (List.replicate 6 (0 : ℝ)) := by
  refine ⟨?_, ?_, ?_⟩
  · intro hk
    rcases eq_or_ne s [] with rfl | hs
    · exact ⟨.emptySample, by unfold acvar; rw [cov_error_left]; rfl⟩
    · have hlen1 : 1 ≤ s.length := List.length_pos.mpr hs
      obtain ⟨v, hv⟩ := cov_ok_of_ne_nil hs hs
      have hmem : s.length - 1 ∈ List.range k := List.mem_range.mpr (by omega)
      have hcov : cov (s.drop (s.length - 1 + 1))
          (s.take (s.length - (s.length - 1 + 1))) = .error .emptySample := by
        rw [show s.length - 1 + 1 = s.length by omega,
          show s.drop s.length = [] from List.drop_eq_nil_iff.mpr le_rfl]
        exact cov_error_left _
      obtain ⟨e2, he2⟩ := mapM_error_of_mem
        (fun i => cov (s.drop (i + 1)) (s.take (s.length - (i + 1)))) hmem hcov
      refine ⟨e2, ?_⟩
      unfold acvar
      rw [hv]
      simp only [Except.bind]
      rw [he2]
  · intro hk
    have hs : s ≠ [] := by
      intro h
      rw [h] at hk
      simp at hk
    obtain ⟨v, hv⟩ := cov_ok_of_ne_nil hs hs
    have hall : ∀ i ∈ List.range k,
        ∃ y, cov (s.drop (i + 1)) (s.take (s.length - (i + 1))) = .ok y := by
      intro i hi
      have hik := List.mem_range.mp hi
      apply cov_ok_of_ne_nil
      · intro hnil
        rw [List.drop_eq_nil_iff] at hnil
        omega
      · intro hnil
        rcases List.take_eq_nil_iff.mp hnil with h1 | h1
        · omega
        · exact hs h1
    obtain ⟨out, hout, hlen⟩ := mapM_ok_of_forall _ _ hall
    refine ⟨v :: out, ?_, by simp [hlen]⟩
    unfold acvar
    rw [hv]
    simp only [Except.bind]
    rw [hout]
  · have h0 : cov (List.replicate 1000 (1 : ℝ)) (List.replicate 1000 (1 : ℝ))
        = .ok 0 := cov_replicate 1000 (by norm_num) 1
    have hstep : ∀ i ∈ List.range 5,
        cov ((List.replicate 1000 (1 : ℝ)).drop (i + 1))
          ((List.replicate 1000 (1 : ℝ)).take
            ((List.replicate 1000 (1 : ℝ)).length - (i + 1))) = .ok 0 := by
      intro i hi
      have hik := List.mem_range.mp hi
      rw [List.drop_replicate, List.length_replicate, List.take_replicate,
        show min (1000 - (i + 1)) 1000 = 1000 - (i + 1) by omega]
      exact cov_replicate _ (by omega) 1
    have hmap := mapM_const_ok _ 0 (List.range 5) hstep
    rw [List.length_range] at hmap
    unfold acvar
    rw [h0]
    simp only [Except.bind]
    rw [hmap]
    rfl

/-- Witness for C9: the theorem applied at a concrete short sample, the
inner failure hypothesis discharged there. -/
theorem acvar_contract_witness : ∃ e, acvar [(1 : ℝ)] 3 = .error e :=
  (acvar_contract [(1 : ℝ)] 3).1 (by simp)

end Stats

end
